import Mathlib

/-!
Verification of the section-scanner / section-extractor / two-revision
comparator of this repository (compare_rule_var.py, compare_pr.py, test.py,
parse.py), as a shallow embedding in Lean 4.

Conventions of the embedding:
* A file content string is a Lean `String`; the only line terminator occurring
  in the inputs of this repository is the newline character, so Python
  `str.splitlines` is modelled for that terminator (`pySplitlines`).
* Python `str.rstrip` / `str.strip` are modelled with `Char.isWhitespace`,
  which covers the whitespace characters occurring in the inputs.
* The two Python `while` loops of `find_section_lines` are modelled with an
  explicit fuel argument so every definition is executable and reduces in the
  kernel; `find_section_lines` passes fuel that is always sufficient
  (`scanLoop_fuel_stable` below proves surplus fuel is never consumed).
* The ruamel.yaml library used by compare_pr.py is external to the
  repository; it enters the embedding as oracle parameters (`yamlLoad`,
  `yamlDump`) constrained only where a claim constrains the document at hand.
-/

/-! ## Character-level helpers: splitlines, join, rstrip -/

/-- Split a character list at every newline character. `splitNlChars cs`
always has one more piece than there are newlines in `cs`; in particular it
is never empty and an empty input gives `[[]]`. -/
def splitNlChars : List Char → List (List Char)
  | [] => [[]]
  | c :: rest =>
    if c = '\n' then [] :: splitNlChars rest
    else (splitNlChars rest).modifyHead (fun l => c :: l)

/-- Join character-list pieces with a newline between consecutive pieces,
modelling the Python idiom of joining lines with a newline separator. -/
def joinNlChars : List (List Char) → List Char
  | [] => []
  | [l] => l
  | l :: l' :: ls => l ++ '\n' :: joinNlChars (l' :: ls)

/-- Model of Python `str.splitlines` for newline-terminated text: split at
every newline, then drop the final piece when it is empty (Python treats the
newline as a terminator, so text after the last newline forms a final line
only when it is nonempty; the empty string gives no lines at all). -/
def pySplitlines (s : String) : List String :=
  let ls := (splitNlChars s.data).map String.mk
  if ls.getLast? = some "" then ls.dropLast else ls

/-- Join a list of lines with newline separators (the Python join idiom used
at compare_rule_var.py line 110). -/
def joinNl (ls : List String) : String :=
  String.mk (joinNlChars (ls.map String.data))

/-- Model of Python `str.rstrip` (compare_rule_var.py line 103): remove
trailing whitespace characters. -/
def rstrip (s : String) : String :=
  String.mk (s.data.reverse.dropWhile Char.isWhitespace).reverse

/-- Model of Python `str.strip`: remove leading and trailing whitespace. -/
def pyStrip (s : String) : String :=
  String.mk ((s.data.dropWhile Char.isWhitespace).reverse.dropWhile Char.isWhitespace).reverse

/-! ## The section scanner (find_section_lines, compare_rule_var.py 44-97) -/

/-- Line access `file_contents[line_num]`; every use in the scanner is guarded
by a bounds check, so the default value is never observable. -/
def lineAt (lines : List String) (i : Nat) : String :=
  lines.getD i ""

/-- The continuation test of the inner loop (compare_rule_var.py lines 88-91):
the loop advances exactly when the line is empty or its first character is a
space; a nonempty line whose first character differs from a space breaks it. -/
def isCont (line : String) : Bool :=
  match line.data.head? with
  | none => true
  | some c => c == ' '

/-- The candidate test of the outer loop (compare_rule_var.py lines 83-84):
the line has at least `sec_id.length` characters and its initial slice of
that length equals `sec_id`, i.e. `sec_id` is a prefix of the line. -/
def matchesSec (sec_id line : String) : Bool :=
  sec_id.data.isPrefixOf line.data

/-- The inner while loop of find_section_lines (lines 87-91): starting the
cursor at `j`, advance while in bounds and the line is a continuation line,
and return the final cursor. Fuel bounds the iteration count; callers pass
`lines.length`, which is always sufficient. -/
def contLoop (lines : List String) : Nat → Nat → Nat
  | 0, j => j
  | fuel + 1, j =>
    if j < lines.length then
      if isCont (lineAt lines j) then contLoop lines fuel (j + 1) else j
    else j

/-- The outer while loop of find_section_lines (lines 82-95), cursor at `i`:
on a candidate match at `i` the inner loop runs from `i + 1` and stops at some
`j`, the range `(i, j - 1)` is recorded, and — because the trailing
`line_num += 1` of the outer loop body executes after the match branch too —
the outer scan resumes at `j + 1`, not at `j`. -/
def scanLoop (lines : List String) (sec_id : String) : Nat → Nat → List (Nat × Nat)
  | 0, _ => []
  | fuel + 1, i =>
    if i < lines.length then
      if matchesSec sec_id (lineAt lines i) then
        (i, contLoop lines lines.length (i + 1) - 1) ::
          scanLoop lines sec_id fuel (contLoop lines lines.length (i + 1) + 1)
      else scanLoop lines sec_id fuel (i + 1)
    else []

/-- find_section_lines (compare_rule_var.py lines 44-97, identical in
test.py): scan the whole line sequence for ranges of the section `sec`,
whose key token is `sec` followed by a colon. -/
def find_section_lines (file_contents : List String) (sec : String) : List (Nat × Nat) :=
  scanLoop file_contents (sec ++ ":") (file_contents.length + 1) 0

example : find_section_lines ["not_it:", "    - value", "this_one:", "     - 2",
    "     - 5", "", "nor_this:"] "this_one" = [(2, 5)] := by decide

example : find_section_lines ["a:", "a:"] "a" = [(0, 0)] := by decide

example : find_section_lines ["x:", "\ta"] "x" = [(0, 0)] := by decide

/-! ## Loop lemmas for the scanner -/

theorem contLoop_ge (lines : List String) :
    ∀ fuel j, j ≤ contLoop lines fuel j := by
  intro fuel
  induction fuel with
  | zero => intro j; simp [contLoop]
  | succ fuel ih =>
    intro j
    simp only [contLoop]
    split
    · split
      · exact Nat.le_trans (Nat.le_succ j) (ih (j + 1))
      · exact Nat.le_refl j
    · exact Nat.le_refl j

theorem contLoop_le_length (lines : List String) :
    ∀ fuel j, j ≤ lines.length → contLoop lines fuel j ≤ lines.length := by
  intro fuel
  induction fuel with
  | zero => intro j h; simpa [contLoop] using h
  | succ fuel ih =>
    intro j h
    simp only [contLoop]
    split
    · split
      · exact ih (j + 1) (by omega)
      · exact h
    · exact h

theorem contLoop_cont (lines : List String) :
    ∀ fuel j k, j ≤ k → k < contLoop lines fuel j →
      isCont (lineAt lines k) = true := by
  intro fuel
  induction fuel with
  | zero => intro j k hjk hk; simp [contLoop] at hk; omega
  | succ fuel ih =>
    intro j k hjk hk
    simp only [contLoop] at hk
    by_cases hj : j < lines.length
    · simp only [hj, if_true] at hk
      by_cases hc : isCont (lineAt lines j) = true
      · simp only [hc, if_true] at hk
        rcases Nat.eq_or_lt_of_le hjk with h | h
        · exact h ▸ hc
        · exact ih (j + 1) k h hk
      · simp only [Bool.not_eq_true] at hc
        simp [hc] at hk
        omega
    · simp [hj] at hk; omega

theorem contLoop_stop (lines : List String) :
    ∀ fuel j, lines.length ≤ fuel + j →
      contLoop lines fuel j < lines.length →
      isCont (lineAt lines (contLoop lines fuel j)) = false := by
  intro fuel
  induction fuel with
  | zero => intro j hfuel hlt; simp [contLoop] at hlt ⊢; omega
  | succ fuel ih =>
    intro j hfuel hlt
    simp only [contLoop] at hlt ⊢
    by_cases hj : j < lines.length
    · simp only [hj, if_true] at hlt ⊢
      by_cases hc : isCont (lineAt lines j) = true
      · simp only [hc, if_true] at hlt ⊢
        exact ih (j + 1) (by omega) hlt
      · simp only [Bool.not_eq_true] at hc
        simp [hc]
    · simp [hj] at hlt

theorem contLoop_all (lines : List String) :
    ∀ fuel j, j ≤ lines.length → lines.length ≤ fuel + j →
      (∀ k, j ≤ k → k < lines.length → isCont (lineAt lines k) = true) →
      contLoop lines fuel j = lines.length := by
  intro fuel
  induction fuel with
  | zero => intro j h1 h2 _; simp [contLoop]; omega
  | succ fuel ih =>
    intro j h1 h2 hall
    simp only [contLoop]
    by_cases hj : j < lines.length
    · simp only [hj, if_true, hall j (Nat.le_refl j) hj, if_true]
      exact ih (j + 1) (by omega) (by omega) (fun k hk => hall k (by omega))
    · simp only [hj, if_false]; omega

theorem scanLoop_out (lines : List String) (sec_id : String) :
    ∀ fuel i, lines.length ≤ i → scanLoop lines sec_id fuel i = [] := by
  intro fuel i h
  cases fuel with
  | zero => rfl
  | succ fuel => simp [scanLoop, Nat.not_lt.mpr h]

/-- Every range the scan emits from cursor `i` starts at `i` or later, its
start line carries the key token, the lines strictly inside the range are
continuation lines, the line after the range (when it exists) is not a
continuation line, and both indices are in bounds. -/
theorem scanLoop_mem (lines : List String) (sec_id : String) :
    ∀ fuel i s e, (s, e) ∈ scanLoop lines sec_id fuel i →
      i ≤ s ∧ s ≤ e ∧ e < lines.length ∧
      matchesSec sec_id (lineAt lines s) = true ∧
      (∀ k, s < k → k ≤ e → isCont (lineAt lines k) = true) ∧
      (e + 1 < lines.length → isCont (lineAt lines (e + 1)) = false) := by
  intro fuel
  induction fuel with
  | zero => intro i s e h; simp [scanLoop] at h
  | succ fuel ih =>
    intro i s e h
    simp only [scanLoop] at h
    by_cases hi : i < lines.length
    · simp only [hi, if_true] at h
      by_cases hm : matchesSec sec_id (lineAt lines i) = true
      · simp only [hm, if_true, List.mem_cons] at h
        rcases h with h | h
        · injection h with hs he
          subst hs
          have hj1 : s + 1 ≤ contLoop lines lines.length (s + 1) :=
            contLoop_ge lines lines.length (s + 1)
          have hj2 : contLoop lines lines.length (s + 1) ≤ lines.length :=
            contLoop_le_length lines lines.length (s + 1) (by omega)
          have hE : e + 1 = contLoop lines lines.length (s + 1) := by omega
          refine ⟨Nat.le_refl s, by omega, by omega, hm, ?_, ?_⟩
          · intro k hk1 hk2
            exact contLoop_cont lines lines.length (s + 1) k (by omega) (by omega)
          · intro hlt
            rw [hE]
            exact contLoop_stop lines lines.length (s + 1) (by omega) (hE ▸ hlt)
        · have := ih _ s e h
          have hj1 : i + 1 ≤ contLoop lines lines.length (i + 1) :=
            contLoop_ge lines lines.length (i + 1)
          exact ⟨by omega, this.2⟩
      · simp only [hm, if_false] at h
        have := ih _ s e h
        exact ⟨by omega, this.2⟩
    · simp [hi] at h

/-- Consecutive emitted ranges are separated by at least two: the range
after `(s, e)` starts at `e + 2` or later, because the scan resumes at the
line after the one that broke the continuation loop. -/
theorem scanLoop_chain (lines : List String) (sec_id : String) :
    ∀ fuel i, List.Chain' (fun p q => p.2 + 2 ≤ q.1) (scanLoop lines sec_id fuel i) := by
  intro fuel
  induction fuel with
  | zero => intro i; simp [scanLoop]
  | succ fuel ih =>
    intro i
    simp only [scanLoop]
    by_cases hi : i < lines.length
    · simp only [hi, if_true]
      by_cases hm : matchesSec sec_id (lineAt lines i) = true
      · simp only [hm, if_true]
        refine List.chain'_cons'.mpr ⟨?_, ih _⟩
        intro q hq
        have hmem : q ∈ scanLoop lines sec_id fuel (contLoop lines lines.length (i + 1) + 1) :=
          List.mem_of_mem_head? hq
        have h1 := (scanLoop_mem lines sec_id fuel _ q.1 q.2 hmem).1
        have hj1 : i + 1 ≤ contLoop lines lines.length (i + 1) :=
          contLoop_ge lines lines.length (i + 1)
        omega
      · simp only [hm, if_false]
        exact ih _
    · simp [hi]

/-- Fuel is irrelevant as soon as it covers the remaining lines: the outer
cursor strictly increases at every iteration, so the scan from cursor `i`
finishes within `lines.length - i` unfoldings. -/
theorem scanLoop_fuel_stable (lines : List String) (sec_id : String) :
    ∀ f₁ f₂ i, lines.length ≤ f₁ + i → lines.length ≤ f₂ + i →
      scanLoop lines sec_id f₁ i = scanLoop lines sec_id f₂ i := by
  intro f₁
  induction f₁ with
  | zero =>
    intro f₂ i h1 h2
    rw [scanLoop_out lines sec_id 0 i (by omega), scanLoop_out lines sec_id f₂ i (by omega)]
  | succ f₁ ih =>
    intro f₂ i h1 h2
    by_cases hi : i < lines.length
    · cases f₂ with
      | zero => omega
      | succ f₂ =>
        simp only [scanLoop, hi, if_true]
        by_cases hm : matchesSec sec_id (lineAt lines i) = true
        · simp only [hm, if_true]
          have hj1 : i + 1 ≤ contLoop lines lines.length (i + 1) :=
            contLoop_ge lines lines.length (i + 1)
          rw [ih f₂ _ (by omega) (by omega)]
        · simp only [hm, if_false]
          exact ih f₂ (i + 1) (by omega) (by omega)
    · rw [scanLoop_out lines sec_id _ i (by omega), scanLoop_out lines sec_id f₂ i (by omega)]

/-- Completeness of the scan: a candidate line `i` at or after the cursor is
either reported as the start of a range, or swallowed by an earlier range —
as one of its continuation lines, or as the single skipped line immediately
after it (the line that broke the continuation loop). -/
theorem scanLoop_complete (lines : List String) (sec_id : String) :
    ∀ fuel i₀ i, lines.length ≤ fuel + i₀ → i₀ ≤ i → i < lines.length →
      matchesSec sec_id (lineAt lines i) = true →
      (∃ e, (i, e) ∈ scanLoop lines sec_id fuel i₀) ∨
      (∃ s e, (s, e) ∈ scanLoop lines sec_id fuel i₀ ∧ s < i ∧ i ≤ e + 1) := by
  intro fuel
  induction fuel with
  | zero => intro i₀ i hfuel h0 hi _; omega
  | succ fuel ih =>
    intro i₀ i hfuel h0 hi hm
    have hi₀ : i₀ < lines.length := by omega
    simp only [scanLoop, hi₀, if_true]
    by_cases hm₀ : matchesSec sec_id (lineAt lines i₀) = true
    · simp only [hm₀, if_true]
      have hj1 : i₀ + 1 ≤ contLoop lines lines.length (i₀ + 1) :=
        contLoop_ge lines lines.length (i₀ + 1)
      rcases Nat.eq_or_lt_of_le h0 with h | h
    
      · exact Or.inl ⟨contLoop lines lines.length (i₀ + 1) - 1, h ▸ List.mem_cons_self _ _⟩
      · by_cases hij : i ≤ contLoop lines lines.length (i₀ + 1)
        · refine Or.inr ⟨i₀, contLoop lines lines.length (i₀ + 1) - 1,
            List.mem_cons_self _ _, h, by omega⟩
        · have := ih (contLoop lines lines.length (i₀ + 1) + 1) i (by omega) (by omega) hi hm
          rcases this with ⟨e, he⟩ | ⟨s, e, hmem, hse⟩
          · exact Or.inl ⟨e, List.mem_cons_of_mem _ he⟩
          · exact Or.inr ⟨s, e, List.mem_cons_of_mem _ hmem, hse⟩
    · simp only [hm₀, if_false]
      have hne : i₀ ≠ i := by
        intro hEq
        exact hm₀ (hEq ▸ hm)
      exact ih (i₀ + 1) i (by omega) (by omega) hi hm

/-- A line sequence whose first line carries the key token and whose other
lines are all continuation lines is scanned as one single range covering the
whole sequence. -/
theorem scanLoop_single (lines : List String) (sec_id : String)
    (hne : 0 < lines.length)
    (hm : matchesSec sec_id (lineAt lines 0) = true)
    (hc : ∀ k, 1 ≤ k → k < lines.length → isCont (lineAt lines k) = true) :
    scanLoop lines sec_id (lines.length + 1) 0 = [(0, lines.length - 1)] := by
  have hall : contLoop lines lines.length 1 = lines.length :=
    contLoop_all lines lines.length 1 hne (by omega) (fun k hk1 hk2 => hc k hk1 hk2)
  simp only [scanLoop, hne, if_true, hm, if_true, Nat.zero_add, hall]
  rw [scanLoop_out lines sec_id lines.length (lines.length + 1) (by omega)]

/-- A string equals the empty string exactly when its character list is empty. -/
theorem str_eq_empty_iff (s : String) : s = "" ↔ s.data = [] := by
  constructor
  · intro h; rw [h]
  · intro h; apply String.ext; rw [h]

/-- The continuation test holds exactly for the empty line and for a line
whose first character is a space. -/
theorem isCont_iff (line : String) :
    isCont line = true ↔ (line = "" ∨ line.data.head? = some ' ') := by
  unfold isCont
  rcases hd : line.data with _ | ⟨c, rest⟩
  · simp [str_eq_empty_iff, hd]
  · simp [str_eq_empty_iff, hd]

/-! ## Claims about the scanner -/

/-- C1, counterexample. The claim says that after recording a match the outer
scan resumes at the line `j` that broke the continuation loop, so that a
top-level key there is examined as a candidate. On the input
`["a:", "a:"]` with section name `a`, the first match records the range
`(0, 0)` and its continuation loop breaks at line 1, which itself carries the
key token at column 0; under the claim the scan would examine line 1 and also
report `(1, 1)`. The code instead increments the cursor once more at the end
of the outer loop body, resumes at line 2, and reports only `(0, 0)`. -/
theorem c1_counterexample :
    find_section_lines ["a:", "a:"] "a" = [(0, 0)] ∧
    ((1, 1) ∉ find_section_lines ["a:", "a:"] "a") := by
  constructor
  · decide
  · decide

/-- C1, amended. After recording a match whose continuation loop stopped at
line `j`, the outer scan resumes at line `j + 1`, skipping line `j` itself:
consequently any later reported range starts at least two lines after the end
of the previous one, and in particular no reported range ever starts on the
line immediately following the previous recorded range. -/
theorem c1_theorem (lines : List String) (name : String) :
    List.Chain' (fun p q => p.2 + 2 ≤ q.1) (find_section_lines lines name) :=
  scanLoop_chain lines (name ++ ":") (lines.length + 1) 0

/-- C2, counterexample. The claim says every line strictly inside a returned
range is empty or begins with any whitespace character (tab included) and
that the line after the range begins with a non-whitespace character. The
code compares the first character against the space character only: on
`["x:", "\ta"]` the tab-indented line 1 breaks the continuation loop, the
returned range is `(0, 0)`, and the line after its end is nonempty and
begins with the whitespace character tab. -/
theorem c2_counterexample :
    find_section_lines ["x:", "\ta"] "x" = [(0, 0)] ∧
    lineAt ["x:", "\ta"] 1 ≠ "" ∧
    (lineAt ["x:", "\ta"] 1).data.head? = some '\t' ∧
    '\t'.isWhitespace = true := by
  refine ⟨by decide, by decide, by decide, by decide⟩

/-- C2, amended. For every line sequence, section name, and range `(s, e)`
returned by the scanner: `s ≤ e`, both indices are in bounds, the line at
`s` begins with the token `name ++ ":"`, every line strictly after `s` and
up to `e` is either empty or begins with a space character (only the space
character counts; blank lines always count as continuations), and the line
immediately after `e`, if it exists, is nonempty and does not begin with a
space (it may begin with another whitespace character such as tab);
otherwise `e` is the last line of the input. -/
theorem c2_theorem (lines : List String) (name : String) (s e : Nat)
    (h : (s, e) ∈ find_section_lines lines name) :
    s ≤ e ∧ e < lines.length ∧
    matchesSec (name ++ ":") (lineAt lines s) = true ∧
    (∀ k, s < k → k ≤ e →
      lineAt lines k = "" ∨ (lineAt lines k).data.head? = some ' ') ∧
    (e + 1 < lines.length →
      lineAt lines (e + 1) ≠ "" ∧ (lineAt lines (e + 1)).data.head? ≠ some ' ') := by
  obtain ⟨-, h2, h3, h4, h5, h6⟩ := scanLoop_mem lines (name ++ ":") (lines.length + 1) 0 s e h
  refine ⟨h2, h3, h4, ?_, ?_⟩
  · intro k hk1 hk2
    exact (isCont_iff (lineAt lines k)).mp (h5 k hk1 hk2)
  · intro hlt
    have := h6 hlt
    have hnot : ¬ (lineAt lines (e + 1) = "" ∨ (lineAt lines (e + 1)).data.head? = some ' ') := by
      intro hcontra
      rw [(isCont_iff (lineAt lines (e + 1))).mpr hcontra] at this
      exact Bool.true_eq_false.mp this
    exact ⟨fun hc => hnot (Or.inl hc), fun hc => hnot (Or.inr hc)⟩

/-- C2, witness for the amended theorem at the input `["x:", " a", "", "b:"]`
with section name `x` and the returned range `(0, 2)`. -/
theorem c2_witness :
    ((0, 2) ∈ find_section_lines ["x:", " a", "", "b:"] "x") ∧
    (0 ≤ 2 ∧ 2 < (["x:", " a", "", "b:"] : List String).length ∧
      matchesSec ("x" ++ ":") (lineAt ["x:", " a", "", "b:"] 0) = true ∧
      (∀ k, 0 < k → k ≤ 2 →
        lineAt ["x:", " a", "", "b:"] k = "" ∨
        (lineAt ["x:", " a", "", "b:"] k).data.head? = some ' ') ∧
      (2 + 1 < (["x:", " a", "", "b:"] : List String).length →
        lineAt ["x:", " a", "", "b:"] (2 + 1) ≠ "" ∧
        (lineAt ["x:", " a", "", "b:"] (2 + 1)).data.head? ≠ some ' ')) :=
  ⟨by decide, c2_theorem ["x:", " a", "", "b:"] "x" 0 2 (by decide)⟩

/-- C3, counterexample. The claim says any content in which the key line
appears twice yields two ranges. On `["desc: a", "desc: b"]` both lines
carry the key token `desc:` at column 0, yet the scanner reports a single
range: the second key line is the line that broke the first continuation
loop, and the resume-at-`j + 1` behaviour skips it. -/
theorem c3_counterexample :
    find_section_lines ["desc: a", "desc: b"] "desc" = [(0, 0)] ∧
    matchesSec "desc:" (lineAt ["desc: a", "desc: b"] 0) = true ∧
    matchesSec "desc:" (lineAt ["desc: a", "desc: b"] 1) = true ∧
    (find_section_lines ["desc: a", "desc: b"] "desc").length ≠ 2 := by
  refine ⟨by decide, by decide, by decide, by decide⟩

/-- C3, amended. Occurrences are reported independently, with no merging or
deduplication, except that an occurrence is not reported when its key line
was already consumed by the range of an earlier occurrence — either as one of
its continuation lines or as the single line immediately after that range
(the line that broke the continuation loop, which the resume skips). Stated
as completeness: every in-bounds line carrying the key token is the start of
a reported range or lies in `(s, e + 1]` for some reported range `(s, e)`. -/
theorem c3_theorem (lines : List String) (name : String) (i : Nat)
    (hi : i < lines.length)
    (hm : matchesSec (name ++ ":") (lineAt lines i) = true) :
    (∃ e, (i, e) ∈ find_section_lines lines name) ∨
    (∃ s e, (s, e) ∈ find_section_lines lines name ∧ s < i ∧ i ≤ e + 1) :=
  scanLoop_complete lines (name ++ ":") (lines.length + 1) 0 i (by omega) (Nat.zero_le i) hi hm

/-- C3, witness for the amended theorem: in `["desc: a", "x: 1", "desc: b"]`
the second occurrence of `desc:` at line 2 is separated from the first range
and is reported. -/
theorem c3_witness :
    (2 < (["desc: a", "x: 1", "desc: b"] : List String).length ∧
      matchesSec ("desc" ++ ":") (lineAt ["desc: a", "x: 1", "desc: b"] 2) = true) ∧
    ((∃ e, (2, e) ∈ find_section_lines ["desc: a", "x: 1", "desc: b"] "desc") ∨
      (∃ s e, (s, e) ∈ find_section_lines ["desc: a", "x: 1", "desc: b"] "desc" ∧
        s < 2 ∧ 2 ≤ e + 1)) :=
  ⟨⟨by decide, by decide⟩,
    c3_theorem ["desc: a", "x: 1", "desc: b"] "desc" 2 (by decide) (by decide)⟩

/-- C5. The ranges returned by find_section_lines are in strictly
increasing, non-overlapping order of start (each start exceeds the previous
end), every range satisfies `start ≤ end`, both indices are in bounds, and
the slice `lines[start : end + 1]` is in bounds and nonempty. -/
theorem c5_theorem (lines : List String) (name : String) (s e : Nat)
    (h : (s, e) ∈ find_section_lines lines name) :
    List.Chain' (fun p q => p.2 < q.1) (find_section_lines lines name) ∧
    s ≤ e ∧ e < lines.length ∧
    ((lines.drop s).take (e + 1 - s)).length = e + 1 - s ∧
    0 < ((lines.drop s).take (e + 1 - s)).length := by
  obtain ⟨-, h2, h3, -, -, -⟩ := scanLoop_mem lines (name ++ ":") (lines.length + 1) 0 s e h
  have hchain := scanLoop_chain lines (name ++ ":") (lines.length + 1) 0
  have hlen : ((lines.drop s).take (e + 1 - s)).length = e + 1 - s := by
    simp only [List.length_take, List.length_drop]
    omega
  refine ⟨List.Chain'.imp ?_ hchain, h2, h3, hlen, by omega⟩
  intro p q hpq
  omega

/-- C5, witness at the input `["opt:", " - 1", "nxt: 2"]` with the returned
range `(0, 1)`. -/
theorem c5_witness :
    ((0, 1) ∈ find_section_lines ["opt:", " - 1", "nxt: 2"] "opt") ∧
    (List.Chain' (fun p q => p.2 < q.1) (find_section_lines ["opt:", " - 1", "nxt: 2"] "opt") ∧
      0 ≤ 1 ∧ 1 < (["opt:", " - 1", "nxt: 2"] : List String).length ∧
      (((["opt:", " - 1", "nxt: 2"] : List String).drop 0).take (1 + 1 - 0)).length = 1 + 1 - 0 ∧
      0 < (((["opt:", " - 1", "nxt: 2"] : List String).drop 0).take (1 + 1 - 0)).length) :=
  ⟨by decide, c5_theorem ["opt:", " - 1", "nxt: 2"] "opt" 0 1 (by decide)⟩

/-- C10. The scan terminates on every finite input: the shared cursor
strictly increases on every iteration of either loop and is bounded by the
number of lines, so the fuel `lines.length + 1` that find_section_lines
passes is always sufficient — giving the loops any additional fuel never
changes the result. -/
theorem c10_theorem (lines : List String) (sec : String) (extra : Nat) :
    scanLoop lines (sec ++ ":") (lines.length + 1 + extra) 0 =
      find_section_lines lines sec :=
  scanLoop_fuel_stable lines (sec ++ ":") (lines.length + 1 + extra) (lines.length + 1) 0
    (by omega) (by omega)

/-! ## Lemmas about splitlines, join and rstrip -/

theorem mem_of_mem_dropWhile {α : Type} (p : α → Bool) :
    ∀ (l : List α) (x : α), x ∈ l.dropWhile p → x ∈ l := by
  intro l
  induction l with
  | nil => intro x h; simp at h
  | cons a l ih =>
    intro x h
    by_cases hp : p a = true
    · rw [List.dropWhile_cons_of_pos hp] at h
      exact List.mem_cons_of_mem a (ih x h)
    · rw [List.dropWhile_cons_of_neg (by simpa using hp)] at h
      exact h

theorem dropWhile_dropWhile {α : Type} (p : α → Bool) (l : List α) :
    (l.dropWhile p).dropWhile p = l.dropWhile p := by
  induction l with
  | nil => rfl
  | cons a l ih =>
    by_cases hp : p a = true
    · rw [List.dropWhile_cons_of_pos hp, ih]
    · rw [List.dropWhile_cons_of_neg (by simpa using hp),
        List.dropWhile_cons_of_neg (by simpa using hp)]

theorem head?_dropWhile {α : Type} (p : α → Bool) :
    ∀ (l : List α) (c : α), (l.dropWhile p).head? = some c → p c = false := by
  intro l
  induction l with
  | nil => intro c h; simp at h
  | cons a l ih =>
    intro c h
    by_cases hp : p a = true
    · rw [List.dropWhile_cons_of_pos hp] at h
      exact ih c h
    · rw [List.dropWhile_cons_of_neg (by simpa using hp)] at h
      simp only [List.head?_cons, Option.some.injEq] at h
      subst h
      simpa using hp

theorem splitNlChars_ne_nil : ∀ cs : List Char, splitNlChars cs ≠ [] := by
  intro cs
  induction cs with
  | nil => simp [splitNlChars]
  | cons c rest ih =>
    simp only [splitNlChars]
    split
    · simp
    · rcases hs : splitNlChars rest with _ | ⟨l, ls⟩
      · exact absurd hs ih
      · simp [List.modifyHead]

theorem splitNlChars_no_newline :
    ∀ (cs : List Char) (l : List Char), l ∈ splitNlChars cs → '\n' ∉ l := by
  intro cs
  induction cs with
  | nil =>
    intro l h
    simp only [splitNlChars, List.mem_singleton] at h
    subst h; simp
  | cons c rest ih =>
    intro l h
    simp only [splitNlChars] at h
    by_cases hc : c = '\n'
    · simp only [hc, if_true, List.mem_cons] at h
      rcases h with h | h
      · subst h; simp
      · exact ih l h
    · simp only [hc, if_false] at h
      rcases hs : splitNlChars rest with _ | ⟨hd, tl⟩
      · exact absurd hs (splitNlChars_ne_nil rest)
      · rw [hs, List.modifyHead] at h
        simp only [List.mem_cons] at h
        rcases h with h | h
        · subst h
          intro hmem
          simp only [List.mem_cons] at hmem
          rcases hmem with hmem | hmem
          · exact hc hmem.symm
          · exact ih hd (hs ▸ List.mem_cons_self hd tl) hmem
        · exact ih l (hs ▸ List.mem_cons_of_mem hd h)

theorem splitNlChars_of_no_newline :
    ∀ cs : List Char, '\n' ∉ cs → splitNlChars cs = [cs] := by
  intro cs
  induction cs with
  | nil => intro _; rfl
  | cons c rest ih =>
    intro h
    simp only [List.mem_cons, not_or] at h
    have hc : ¬ c = '\n' := fun hh => h.1 hh.symm
    simp only [splitNlChars, if_neg hc, ih h.2, List.modifyHead]

theorem splitNlChars_append (l cs : List Char) (h : '\n' ∉ l) :
    splitNlChars (l ++ cs) = (splitNlChars cs).modifyHead (fun hd => l ++ hd) := by
  induction l with
  | nil =>
    simp only [List.nil_append]
    rcases hs : splitNlChars cs with _ | ⟨hd, tl⟩
    · exact absurd hs (splitNlChars_ne_nil cs)
    · simp [List.modifyHead]
  | cons c l ih =>
    simp only [List.mem_cons, not_or] at h
    have hc : ¬ c = '\n' := fun hh => h.1 hh.symm
    simp only [List.cons_append, splitNlChars, if_neg hc, List.append_eq, ih h.2]
    rcases hs : splitNlChars cs with _ | ⟨hd, tl⟩
    · exact absurd hs (splitNlChars_ne_nil cs)
    · simp [List.modifyHead]

theorem splitNlChars_joinNlChars :
    ∀ ls : List (List Char), ls ≠ [] → (∀ l ∈ ls, '\n' ∉ l) →
      splitNlChars (joinNlChars ls) = ls := by
  intro ls
  induction ls with
  | nil => intro h _; exact absurd rfl h
  | cons l ls ih =>
    intro _ hall
    cases ls with
    | nil =>
      simp only [joinNlChars]
      exact splitNlChars_of_no_newline l (hall l (List.mem_singleton.mpr rfl))
    | cons l' ls' =>
      have hjoin : joinNlChars (l :: l' :: ls') = l ++ '\n' :: joinNlChars (l' :: ls') := rfl
      rw [hjoin, splitNlChars_append l _ (hall l (List.mem_cons_self _ _))]
      have : splitNlChars ('\n' :: joinNlChars (l' :: ls')) =
          [] :: splitNlChars (joinNlChars (l' :: ls')) := by
        simp [splitNlChars]
      rw [this, ih (by simp) (fun x hx => hall x (List.mem_cons_of_mem l hx))]
      simp [List.modifyHead]

theorem string_mk_data (s : String) : String.mk s.data = s := by
  apply String.ext
  rfl

theorem rstrip_idem (s : String) : rstrip (rstrip s) = rstrip s := by
  unfold rstrip
  apply String.ext
  simp only [List.reverse_reverse]
  rw [dropWhile_dropWhile]

theorem mem_rstrip_data (s : String) (c : Char) (h : c ∈ (rstrip s).data) : c ∈ s.data := by
  unfold rstrip at h
  simp only [List.mem_reverse] at h
  have := mem_of_mem_dropWhile Char.isWhitespace s.data.reverse c h
  simpa using this

/-- A string fixed by rstrip does not end with a whitespace character;
in particular it does not end with a newline. -/
theorem rstrip_fixed_getLast (s : String) (hfix : rstrip s = s) (c : Char)
    (h : s.data.getLast? = some c) : c.isWhitespace = false := by
  have hdata : (s.data.reverse.dropWhile Char.isWhitespace).reverse = s.data := by
    have := congrArg String.data hfix
    simpa [rstrip] using this
  have hrev : s.data.reverse.dropWhile Char.isWhitespace = s.data.reverse := by
    have := congrArg List.reverse hdata
    simpa using this
  have hhead : s.data.reverse.head? = some c := by
    rw [List.head?_reverse]
    exact h
  apply head?_dropWhile Char.isWhitespace s.data.reverse c
  rw [hrev]
  exact hhead

theorem pySplitlines_mem_no_newline (s : String) (x : String)
    (h : x ∈ pySplitlines s) : '\n' ∉ x.data := by
  unfold pySplitlines at h
  have hx : x ∈ (splitNlChars s.data).map String.mk := by
    by_cases hc : ((splitNlChars s.data).map String.mk).getLast? = some ""
    · simp only [hc, if_true] at h
      exact List.dropLast_subset _ h
    · simp only [hc, if_false] at h
      exact h
  obtain ⟨piece, hpiece, hxeq⟩ := List.mem_map.mp hx
  subst hxeq
  exact splitNlChars_no_newline s.data piece hpiece

/-- Splitting a newline-join of nonempty, newline-free lines recovers the
lines, except that a final empty line is dropped (the final newline is a
terminator for Python splitlines). -/
theorem pySplitlines_joinNl (ls : List String) (hne : ls ≠ [])
    (hnl : ∀ l ∈ ls, '\n' ∉ l.data) :
    pySplitlines (joinNl ls) =
      if ls.getLast? = some "" then ls.dropLast else ls := by
  unfold pySplitlines joinNl
  have hsplit : splitNlChars (String.mk (joinNlChars (ls.map String.data))).data =
      ls.map String.data := by
    have : (String.mk (joinNlChars (ls.map String.data))).data =
        joinNlChars (ls.map String.data) := rfl
    rw [this]
    apply splitNlChars_joinNlChars
    · simpa using hne
    · intro l hl
      obtain ⟨x, hx, hxeq⟩ := List.mem_map.mp hl
      subst hxeq
      exact hnl x hx
  rw [hsplit, List.map_map]
  have hmap : ls.map (String.mk ∘ String.data) = ls := by
    apply List.map_id''
    intro x
    exact string_mk_data x
  rw [hmap]

/-- When a line list of two or more lines ends with an empty line, its
newline-join ends with a newline character. -/
theorem joinNl_getLast_newline :
    ∀ ls : List String, 2 ≤ ls.length → ls.getLast? = some "" →
      (joinNl ls).data.getLast? = some '\n' := by
  intro ls
  induction ls with
  | nil => intro h _; simp at h
  | cons a ls ih =>
    intro hlen hlast
    cases ls with
    | nil => simp at hlen
    | cons b t =>
      have hdata : (joinNl (a :: b :: t)).data =
          a.data ++ '\n' :: (joinNl (b :: t)).data := by
        simp [joinNl, joinNlChars]
      rw [hdata, List.getLast?_append_cons]
      cases t with
      | nil =>
        have hb : b = "" := by
          simpa [List.getLast?] using hlast
        subst hb
        simp [joinNl, joinNlChars]
      | cons c t' =>
        have hlast' : (b :: c :: t').getLast? = some "" := by
          simpa using hlast
        have hIH := ih (by simp) hlast'
        have hne : (joinNl (b :: c :: t')).data ≠ [] := by
          intro hnil
          rw [hnil] at hIH
          simp at hIH
        rcases hd : (joinNl (b :: c :: t')).data with _ | ⟨u, us⟩
        · exact absurd hd hne
        · rw [hd] at hIH
          rw [List.getLast?_cons_cons]
          exact hIH

/-- Element access into the slice `lines[s : s + n]` agrees with access into
the original list. -/
theorem lineAt_slice (lines : List String) (s n k : Nat) (hk : k < n) :
    lineAt ((lines.drop s).take n) k = lineAt lines (s + k) := by
  unfold lineAt
  simp only [List.getD_eq_getElem?_getD]
  rw [List.getElem?_take_of_lt hk, List.getElem?_drop]

/-! ## The section extractor (get_section_value, compare_rule_var.py 99-118) -/

/-- The text stored for one found range (compare_rule_var.py lines 109-110):
the inclusive line slice `lines[start : end + 1]`, rejoined with newline
separators. -/
def sectionText (lines : List String) (r : Nat × Nat) : String :=
  joinNl ((lines.drop r.1).take (r.2 + 1 - r.1))

/-- Python dict assignment `d[k] = v` on an insertion-ordered dictionary,
modelled on an association list: an existing entry for `k` is overwritten in
place, a new key is appended at the end. -/
def dictInsert (d : List (String × String)) (k v : String) : List (String × String) :=
  if d.any (fun p => p.1 == k) then d.map (fun p => if p.1 == k then (k, v) else p)
  else d ++ [(k, v)]

/-- The in-memory dictionary `sections_value` built by get_section_value
(compare_rule_var.py lines 100-111): for every requested section name, every
found range stores its joined text under that name, so a later range for the
same name overwrites an earlier one. -/
def sections_value (lines : List String) (keys_to_find : List String) :
    List (String × String) :=
  keys_to_find.foldl
    (fun d sec =>
      (find_section_lines lines sec).foldl
        (fun d r => dictInsert d sec (sectionText lines r)) d)
    []

/-- Single-name in-memory extraction: the value that get_section_value's loop
leaves in `sections_value[name]` after splitting the content into
trailing-stripped lines (compare_rule_var.py lines 103-111), or `none` when
the scanner finds no range. This is the extraction step of the pipeline; the
surrounding file handling of get_section_value is modelled separately below. -/
def extract_section (content : String) (name : String) : Option String :=
  List.lookup name (sections_value ((pySplitlines content).map rstrip) [name])

example : extract_section "rule: allow\noptions:\n  - a\n  - b\n" "options" =
    some "options:\n  - a\n  - b" := by decide

example : extract_section "x: 1\ny:\nx: 2" "x" = some "x: 2" := by decide

theorem dictInsert_nil (k v : String) : dictInsert [] k v = [(k, v)] := by
  simp [dictInsert]

theorem dictInsert_self (k v w : String) : dictInsert [(k, v)] k w = [(k, w)] := by
  simp [dictInsert]

theorem foldl_dictInsert_singleton (name : String) (f : Nat × Nat → String) :
    ∀ (rs : List (Nat × Nat)) (v : String),
      rs.foldl (fun d r => dictInsert d name (f r)) [(name, v)] =
      [(name, rs.foldl (fun _ r => f r) v)] := by
  intro rs
  induction rs with
  | nil => intro v; rfl
  | cons r rs ih =>
    intro v
    rw [List.foldl_cons, List.foldl_cons, dictInsert_self]
    exact ih (f r)

theorem foldl_pick_last (f : Nat × Nat → String) :
    ∀ (rs : List (Nat × Nat)) (v : String) (r : Nat × Nat), rs.getLast? = some r →
      rs.foldl (fun _ x => f x) v = f r := by
  intro rs
  induction rs with
  | nil => intro v r h; simp at h
  | cons a rs ih =>
    intro v r h
    rw [List.foldl_cons]
    cases rs with
    | nil =>
      simp only [List.getLast?_singleton, Option.some.injEq] at h
      subst h
      rfl
    | cons b t =>
      rw [List.getLast?_cons_cons] at h
      exact ih (f a) r h

/-- The dictionary built for a single requested name holds exactly the text
of the LAST range the scanner found for that name. -/
theorem sections_value_single (lines : List String) (name : String) (r : Nat × Nat)
    (h : (find_section_lines lines name).getLast? = some r) :
    sections_value lines [name] = [(name, sectionText lines r)] := by
  unfold sections_value
  rw [List.foldl_cons, List.foldl_nil]
  cases hrs : find_section_lines lines name with
  | nil => rw [hrs] at h; simp at h
  | cons r₀ rs =>
    rw [hrs] at h
    rw [List.foldl_cons, dictInsert_nil, foldl_dictInsert_singleton]
    cases rs with
    | nil =>
      simp only [List.getLast?_singleton, Option.some.injEq] at h
      subst h
      rfl
    | cons b t =>
      rw [List.getLast?_cons_cons] at h
      rw [foldl_pick_last (fun x => sectionText lines x) (b :: t) (sectionText lines r₀) r h]

theorem sections_value_single_nil (lines : List String) (name : String)
    (h : find_section_lines lines name = []) :
    sections_value lines [name] = [] := by
  unfold sections_value
  rw [List.foldl_cons, List.foldl_nil, h, List.foldl_nil]

/-! ## Claims about the extractor -/

/-- C4, counterexample. The claim says single-name extraction returns the
FIRST occurrence's text when the name occurs more than once. The dictionary
assignment `sections_value[section] = value` inside the loop over found
ranges (compare_rule_var.py line 111, test.py line 69) overwrites the entry on
every range, so the LAST occurrence's text survives: on content
`"x: 1\ny:\nx: 2"` the scanner finds the ranges `(0, 0)` and `(2, 2)` and
extraction returns the second occurrence's text. -/
theorem c4_counterexample :
    extract_section "x: 1\ny:\nx: 2" "x" = some "x: 2" ∧
    extract_section "x: 1\ny:\nx: 2" "x" ≠ some "x: 1" ∧
    find_section_lines ((pySplitlines "x: 1\ny:\nx: 2").map rstrip) "x" =
      [(0, 0), (2, 2)] := by
  refine ⟨by decide, by decide, by decide⟩

/-- C4, amended. Single-name extraction takes the LAST range found by the
scanner, slices that inclusive line span out of the trailing-stripped line
sequence, rejoins it with newline separators, and returns that text
verbatim; when the name occurs more than once, the last occurrence's text
(not the first occurrence's) is the extracted value. -/
theorem c4_theorem (content name : String) (s e : Nat)
    (h : (find_section_lines ((pySplitlines content).map rstrip) name).getLast? = some (s, e)) :
    extract_section content name =
      some (joinNl (((((pySplitlines content).map rstrip).drop s)).take (e + 1 - s))) := by
  unfold extract_section
  rw [sections_value_single ((pySplitlines content).map rstrip) name (s, e) h]
  simp [List.lookup, sectionText]

/-- C4, witness for the amended theorem at the counterexample content: the
last range is `(2, 2)` and its text is the extracted value. -/
theorem c4_witness :
    (find_section_lines ((pySplitlines "x: 1\ny:\nx: 2").map rstrip) "x").getLast? =
      some (2, 2) ∧
    extract_section "x: 1\ny:\nx: 2" "x" =
      some (joinNl (((((pySplitlines "x: 1\ny:\nx: 2").map rstrip).drop 2)).take (2 + 1 - 2))) :=
  ⟨by decide, c4_theorem "x: 1\ny:\nx: 2" "x" 2 2 (by decide)⟩

/-- A line matching the key token `name ++ ":"` is nonempty. -/
theorem matchesSec_ne_empty (name line : String)
    (hm : matchesSec (name ++ ":") line = true) : line ≠ "" := by
  intro hemp
  subst hemp
  unfold matchesSec at hm
  have hpre : (name ++ ":").data <+: ("" : String).data :=
    List.isPrefixOf_iff_prefix.mp hm
  have hnil : (name ++ ":").data = [] := List.eq_nil_of_prefix_nil hpre
  rw [String.data_append] at hnil
  simp at hnil

/-- Every line of the trailing-stripped line sequence of a content string is
fixed by rstrip and contains no newline character. -/
theorem stripped_lines_facts (content : String) (x : String)
    (hx : x ∈ (pySplitlines content).map rstrip) :
    rstrip x = x ∧ '\n' ∉ x.data := by
  obtain ⟨y, hy, hyeq⟩ := List.mem_map.mp hx
  subst hyeq
  refine ⟨rstrip_idem y, ?_⟩
  intro hmem
  exact pySplitlines_mem_no_newline content y hy (mem_rstrip_data y '\n' hmem)

/-- C8, counterexample. The claim says re-extracting from an already
extracted text always returns the same text. When the extracted block ends
with a blank line, the rejoined text ends with a newline, which Python
splitlines treats as a terminator: re-extraction loses that final blank
line. On content `"x:\n\n"` extraction returns `"x:\n"`, but extracting from
`"x:\n"` returns `"x:"`. -/
theorem c8_counterexample :
    extract_section "x:\n\n" "x" = some "x:\n" ∧
    extract_section "x:\n" "x" = some "x:" ∧
    some "x:" ≠ some "x:\n" := by
  refine ⟨by decide, by decide, by decide⟩

/-- An extracted value is the text of the last range the scanner found, and
that range satisfies the scanner invariants. -/
theorem extract_section_eq_sectionText (content name v : String)
    (hex : extract_section content name = some v) :
    ∃ s e, (find_section_lines ((pySplitlines content).map rstrip) name).getLast? =
        some (s, e) ∧
      (s, e) ∈ find_section_lines ((pySplitlines content).map rstrip) name ∧
      v = sectionText ((pySplitlines content).map rstrip) (s, e) := by
  rcases hlast : (find_section_lines ((pySplitlines content).map rstrip) name).getLast? with
    _ | ⟨⟨s, e⟩⟩
  · rw [List.getLast?_eq_none_iff] at hlast
    unfold extract_section at hex
    rw [sections_value_single_nil _ name hlast] at hex
    simp [List.lookup] at hex
  · refine ⟨s, e, rfl, List.mem_of_getLast?_eq_some hlast, ?_⟩
    unfold extract_section at hex
    rw [sections_value_single _ name (s, e) hlast] at hex
    simp [List.lookup] at hex
    exact hex.symm

/-- C8, amended. Extraction is idempotent for every extracted value that
does not end with a newline character: if extraction returns `v` from some
content and `v` does not end with a newline (equivalently, the extracted
block's final line is not blank), then extracting from `v` with the same
name returns `v` itself. When the extracted block ends with a blank line the
rejoined text ends with a newline, re-splitting treats that newline as a
terminator, and re-extraction returns `v` without the final blank line. -/
theorem c8_theorem (content name v : String)
    (hex : extract_section content name = some v)
    (hnl : v.data.getLast? ≠ some '\n') :
    extract_section v name = some v := by
  obtain ⟨s, e, hlast, hmem, hv⟩ := extract_section_eq_sectionText content name v hex
  set lines := (pySplitlines content).map rstrip with hlines
  obtain ⟨-, h2, h3, h4, h5, -⟩ :=
    scanLoop_mem lines (name ++ ":") (lines.length + 1) 0 s e hmem
  set block := (lines.drop s).take (e + 1 - s) with hblock
  have hvb : v = joinNl block := hv
  have hblen : block.length = e + 1 - s := by
    rw [hblock]
    simp only [List.length_take, List.length_drop]
    omega
  have hbpos : 0 < block.length := by omega
  have hb0 : lineAt block 0 = lineAt lines s := by
    have := lineAt_slice lines s (e + 1 - s) 0 (by omega)
    simpa using this
  have hbk : ∀ k, 1 ≤ k → k < block.length → isCont (lineAt block k) = true := by
    intro k hk1 hk2
    rw [hblock, lineAt_slice lines s (e + 1 - s) k (by omega)]
    exact h5 (s + k) (by omega) (by omega)
  have hbmem : ∀ x ∈ block, x ∈ lines := by
    intro x hx
    rw [hblock] at hx
    exact List.mem_of_mem_drop (List.mem_of_mem_take hx)
  have hbfix : ∀ x ∈ block, rstrip x = x :=
    fun x hx => (stripped_lines_facts content x (hlines ▸ hbmem x hx)).1
  have hbnnl : ∀ x ∈ block, '\n' ∉ x.data :=
    fun x hx => (stripped_lines_facts content x (hlines ▸ hbmem x hx)).2
  have hbne : block ≠ [] := List.ne_nil_of_length_pos hbpos
  have hm0 : matchesSec (name ++ ":") (lineAt block 0) = true := by
    rw [hb0]; exact h4
  have hhead : lineAt block 0 ≠ "" := matchesSec_ne_empty name _ hm0
  have hlastne : block.getLast? ≠ some "" := by
    intro hbad
    by_cases hone : block.length = 1
    · obtain ⟨a, ha⟩ := List.length_eq_one.mp hone
      rw [ha] at hbad
      simp only [List.getLast?_singleton, Option.some.injEq] at hbad
      apply hhead
      rw [ha, hbad]
      rfl
    · have := joinNl_getLast_newline block (by omega) hbad
      rw [← hvb] at this
      exact hnl this
  have hsplit : pySplitlines v = block := by
    rw [hvb, pySplitlines_joinNl block hbne hbnnl, if_neg hlastne]
  have hmaprs : (pySplitlines v).map rstrip = block := by
    rw [hsplit]
    rw [List.map_congr_left hbfix]
    simp
  have hfind : find_section_lines block name = [(0, block.length - 1)] :=
    scanLoop_single block (name ++ ":") hbpos hm0 hbk
  have hslice : (block.drop 0).take (block.length - 1 + 1 - 0) = block := by
    rw [List.drop_zero]
    have hlen1 : block.length - 1 + 1 - 0 = block.length := by omega
    rw [hlen1, List.take_length]
  unfold extract_section
  rw [hmaprs, sections_value_single block name (0, block.length - 1) (by rw [hfind]; rfl)]
  simp only [List.lookup, beq_self_eq_true, if_true]
  rw [hvb]
  unfold sectionText
  rw [hslice]

/-- C8, witness for the amended theorem: extraction from
`"rule: x\nfoo:\n  a"` returns `"foo:\n  a"`, which does not end with a
newline, and re-extraction returns it unchanged. -/
theorem c8_witness :
    extract_section "rule: x\nfoo:\n  a" "foo" = some "foo:\n  a" ∧
    ("foo:\n  a".data.getLast? ≠ some '\n') ∧
    extract_section "foo:\n  a" "foo" = some "foo:\n  a" :=
  ⟨by decide, by decide,
    c8_theorem "rule: x\nfoo:\n  a" "foo" "foo:\n  a" (by decide) (by decide)⟩

/-! ## get_section_value as called by main (compare_rule_var.py 99-118, 182-184) -/

/-- The exceptions get_section_value can raise to its caller. -/
inductive PyError where
  | systemExit (code : Nat)
  | nameError (missing : String)

/-- get_section_value (compare_rule_var.py lines 99-118). The function
receives `yml_file` and opens it as a FILE PATH (line 102), although main at
line 183 passes it the fetched file CONTENT string; the filesystem is
modelled as a map from path to content. When the open fails, the
FileNotFoundError handler calls sys.exit(0) (line 118), raising SystemExit
to the caller. When the open succeeds, the function reads the
trailing-stripped lines, builds the sections_value dictionary (lines
103-111), and then evaluates `yaml.dump(sections_value, string_stream)` at
line 113 — but the name `yaml` is bound nowhere in compare_rule_var.py (only
the class name YAML is imported at line 8), so this raises NameError.
No execution path returns normally. -/
def get_section_value (fs : String → Option String) (yml_file : String)
    (keys_to_find : List String) : Except PyError String :=
  match fs yml_file with
  | none => Except.error (PyError.systemExit 0)
  | some content =>
    let lines := (pySplitlines content).map rstrip
    let _sections := sections_value lines keys_to_find
    Except.error (PyError.nameError "yaml")

/-- C6. The claim says the comparison pipeline is total and never raises to
its caller. In compare_rule_var.py the pipeline is
`get_section_value(before_content, keys)` / `get_section_value(after_content,
keys)` (main lines 183-184), and get_section_value never returns normally on
ANY input: if opening its argument as a file path fails it raises SystemExit
via sys.exit(0), and if it succeeds it raises NameError at the unbound name
`yaml` on line 113. -/
theorem c6_theorem (fs : String → Option String) (yml_file : String)
    (keys_to_find : List String) :
    ∃ err, get_section_value fs yml_file keys_to_find = Except.error err := by
  unfold get_section_value
  cases fs yml_file with
  | none => exact ⟨PyError.systemExit 0, rfl⟩
  | some content => exact ⟨PyError.nameError "yaml", rfl⟩

/-- C9. The claimed end-to-end values are exactly what the in-memory
extraction produces — the two extracted texts differ, so the comparison
would report a change — but the code as written never reaches the
comparison: main passes the content strings to get_section_value, which
opens them as file paths; no file has the multi-line content string as its
name, so both calls exit via sys.exit(0) before any value is returned. -/
theorem c9_theorem :
    extract_section "rule: allow\noptions:\n  - a\n  - b\n" "options" =
      some "options:\n  - a\n  - b" ∧
    extract_section "rule: allow\noptions:\n  - a\n  - c\n" "options" =
      some "options:\n  - a\n  - c" ∧
    (some "options:\n  - a\n  - b" : Option String) ≠ some "options:\n  - a\n  - c" ∧
    get_section_value (fun _ => none) "rule: allow\noptions:\n  - a\n  - b\n" ["options"] =
      Except.error (PyError.systemExit 0) ∧
    get_section_value (fun _ => none) "rule: allow\noptions:\n  - a\n  - c\n" ["options"] =
      Except.error (PyError.systemExit 0) := by
  refine ⟨by decide, by decide, by decide, rfl, rfl⟩

/-! ## The yaml-based comparator (compare_pr.py 37-75, 117-132) -/

/-- Values of a parsed YAML document, as compare_pr.py consumes them: the
null value, a scalar carrying the rendering Python str would give it, a
sequence, or a mapping with string keys in document order. -/
inductive Yaml where
  | null : Yaml
  | scalar (rendering : String) : Yaml
  | list (items : List Yaml) : Yaml
  | dict (entries : List (String × Yaml)) : Yaml

/-- The key-search loop of parse_yaml_and_get_keys (compare_pr.py lines
60-64): the first key of `keys_to_find` present in the mapping wins, even
when its value is null. -/
def firstFoundKey (entries : List (String × Yaml)) : List String → Option Yaml
  | [] => none
  | k :: ks =>
    match List.lookup k entries with
    | some v => some v
    | none => firstFoundKey entries ks

/-- The template-markup test of compare_pr.py line 46: the stripped line
starts with three opening braces. -/
def startsWithTripleBrace (s : String) : Bool :=
  "\x7b\x7b\x7b".data.isPrefixOf s.data

/-- The pre-processing of compare_pr.py lines 44-47: split the content into
lines, drop every line whose stripped form starts with a triple brace, and
rejoin with newline separators. -/
def cleaned_content (content : String) : String :=
  joinNl ((pySplitlines content).filter
    (fun line => !(startsWithTripleBrace (pyStrip line))))

/-- parse_yaml_and_get_keys (compare_pr.py lines 37-75). The ruamel.yaml
library is external to the repository: `yamlLoad` models yaml.load, with an
error value standing for a raised parse exception, which the code catches
and converts to None (lines 56-58), and a non-mapping document converted to
None as well (lines 54-55); `yamlDumpStripped` models the
dump-then-getvalue-then-strip rendering of lines 70-73, applied to mapping
and sequence values; a scalar is rendered by Python str (line 75), the
rendering its constructor carries; a null found value is Python None and
yields None (lines 66-67). Empty cleaned content returns None before the
loader is consulted (lines 49-50). -/
def parse_yaml_and_get_keys (yamlLoad : String → Except String Yaml)
    (yamlDumpStripped : Yaml → String)
    (content : String) (keys_to_find : List String) : Option String :=
  if pyStrip (cleaned_content content) = "" then none
  else
    match yamlLoad (cleaned_content content) with
    | Except.error _ => none
    | Except.ok data =>
      match data with
      | Yaml.dict entries =>
        match firstFoundKey entries keys_to_find with
        | none => none
        | some Yaml.null => none
        | some (Yaml.scalar r) => some r
        | some (Yaml.dict d) => some (yamlDumpStripped (Yaml.dict d))
        | some (Yaml.list l) => some (yamlDumpStripped (Yaml.list l))
      | _ => none

/-- The structured comparison result of the spec: the two extracted values
and the derived changed flag. -/
structure ComparisonResult where
  before_value : Option String
  after_value : Option String
  changed : Bool

/-- The comparison step of compare_pr.py main (lines 117-132): parse both
contents for the requested keys and compare with Python equality; a change
is reported exactly when the two values differ. Absent is the Python None
value, distinct from every string; a failed fetch surfaces as the empty
content string (get_file_content_from_pr lines 22-35). -/
def compare_keys (yamlLoad : String → Except String Yaml)
    (yamlDumpStripped : Yaml → String)
    (before_content after_content : String) (keys : List String) : ComparisonResult :=
  { before_value := parse_yaml_and_get_keys yamlLoad yamlDumpStripped before_content keys
    after_value := parse_yaml_and_get_keys yamlLoad yamlDumpStripped after_content keys
    changed := !(parse_yaml_and_get_keys yamlLoad yamlDumpStripped before_content keys ==
      parse_yaml_and_get_keys yamlLoad yamlDumpStripped after_content keys) }

theorem parse_empty_content (yamlLoad : String → Except String Yaml)
    (yamlDumpStripped : Yaml → String) (keys : List String) :
    parse_yaml_and_get_keys yamlLoad yamlDumpStripped "" keys = none := rfl

theorem parse_x1 (yamlLoad : String → Except String Yaml)
    (yamlDumpStripped : Yaml → String)
    (hL : yamlLoad "x: 1" = Except.ok (Yaml.dict [("x", Yaml.scalar "1")])) :
    parse_yaml_and_get_keys yamlLoad yamlDumpStripped "x: 1" ["x"] = some "1" := by
  unfold parse_yaml_and_get_keys
  have hclean : cleaned_content "x: 1" = "x: 1" := by decide
  rw [hclean, if_neg (by decide), hL]
  rfl

/-- C7. With both contents absent (represented as the empty string, the
value the content fetcher returns on failure), the comparison reports no
change and both values absent; with an absent before and an after whose
document maps the requested key, the comparison reports a change. In general
the changed flag holds exactly when the two extracted values differ, and the
absent value differs from every present value, the present empty string
included. The loader is an oracle for the external yaml library, constrained
only on the one concrete document the claim mentions. -/
theorem c7_theorem (yamlLoad : String → Except String Yaml)
    (yamlDumpStripped : Yaml → String) (keys : List String)
    (hL : yamlLoad "x: 1" = Except.ok (Yaml.dict [("x", Yaml.scalar "1")])) :
    compare_keys yamlLoad yamlDumpStripped "" "" keys =
      { before_value := none, after_value := none, changed := false } ∧
    (compare_keys yamlLoad yamlDumpStripped "" "x: 1" ["x"]).changed = true ∧
    (∀ b a ks, (compare_keys yamlLoad yamlDumpStripped b a ks).changed = true ↔
      (compare_keys yamlLoad yamlDumpStripped b a ks).before_value ≠
        (compare_keys yamlLoad yamlDumpStripped b a ks).after_value) ∧
    (∀ s : String, (none : Option String) ≠ some s) := by
  refine ⟨?_, ?_, ?_, ?_⟩
  · simp [compare_keys, parse_empty_content]
  · simp [compare_keys, parse_empty_content,
      parse_x1 yamlLoad yamlDumpStripped hL]
  · intro b a ks
    simp [compare_keys]
  · intro s h
    exact Option.noConfusion h

/-- A loader oracle agreeing with the yaml library on the single document
the C7 scenario uses. -/
def sampleLoad : String → Except String Yaml :=
  fun s =>
    if s = "x: 1" then Except.ok (Yaml.dict [("x", Yaml.scalar "1")])
    else Except.error "parse error"

/-- A dump oracle; the C7 scenario never reaches it. -/
def sampleDump : Yaml → String := fun _ => ""

/-- C7, witness at the concrete oracles. -/
theorem c7_witness :
    sampleLoad "x: 1" = Except.ok (Yaml.dict [("x", Yaml.scalar "1")]) ∧
    compare_keys sampleLoad sampleDump "" "" ["x"] =
      { before_value := none, after_value := none, changed := false } ∧
    (compare_keys sampleLoad sampleDump "" "x: 1" ["x"]).changed = true :=
  ⟨rfl, (c7_theorem sampleLoad sampleDump ["x"] rfl).1,
    (c7_theorem sampleLoad sampleDump ["x"] rfl).2.1⟩
